import Mathlib

/-!
Verification of the pw_handler repository (src/pw_handler.py).

Modelling conventions:
- Bytes are natural numbers (values < 256 in all reachable states); byte
  strings are lists of naturals; user-typed text is a list of characters.
- The external AES library (Crypto.Cipher.AES) is modelled as an abstract
  keyed block function of type AESfun; theorems about encryption take the
  block-cipher properties (a left inverse, block-length preservation) as
  hypotheses, and concrete witnesses instantiate it with a keyed xor
  permutation, which satisfies both.
- A Python exception that the source does not catch is modelled as the
  value none (the process dies); a caught exception is modelled by the
  Bool flag "an error message was printed".
-/

set_option autoImplicit false

/-- An abstract block cipher: key, 16-byte block, 16-byte block. -/
abbrev AESfun := List Nat → List Nat → List Nat

/-- Bytewise xor of two byte strings (truncates to the shorter). -/
def xorB (a b : List Nat) : List Nat := List.zipWith (fun x y => x ^^^ y) a b

/-- The keyed xor cipher: a concrete AESfun that is its own inverse. -/
def xorAES : AESfun := fun k b => xorB k b

/-- Fuel-driven CBC-mode encryption, 16 bytes at a time, as performed by
obj.encrypt in the source (obj = AES.new(key, AES.MODE_CBC, iv)). -/
def cbcEncF (E : AESfun) (key : List Nat) : Nat → List Nat → List Nat → List Nat
  | 0, _, _ => []
  | fuel + 1, prev, p =>
    if p = [] then []
    else
      let c := E key (xorB prev (p.take 16))
      c ++ cbcEncF E key fuel c (p.drop 16)

/-- CBC encryption of a whole (padded) plaintext under an initial IV. -/
def cbcEnc (E : AESfun) (key iv p : List Nat) : List Nat :=
  cbcEncF E key p.length iv p

/-- Fuel-driven CBC-mode decryption, matching obj.decrypt in the source. -/
def cbcDecF (D : AESfun) (key : List Nat) : Nat → List Nat → List Nat → List Nat
  | 0, _, _ => []
  | fuel + 1, prev, c =>
    if c = [] then []
    else xorB prev (D key (c.take 16)) ++ cbcDecF D key fuel (c.take 16) (c.drop 16)

/-- CBC decryption of a whole ciphertext under an initial IV. -/
def cbcDec (D : AESfun) (key iv c : List Nat) : List Nat :=
  cbcDecF D key c.length iv c

/-- Sentinel padding used by _encrypt: rem = (-len(content)) % 16 fill
bytes of value 255 appended to the plaintext. -/
def pad255 (c : List Nat) : List Nat :=
  c ++ List.replicate ((16 - c.length % 16) % 16) 255

/-- Index of the first byte 255, as computed by x.index(255); none models
the ValueError raised when no byte 255 is present. -/
def idx255 : List Nat → Option Nat
  | [] => none
  | b :: rest => if b = 255 then some 0 else (idx255 rest).map (· + 1)

/-- The on-disk blob produced by _encrypt and _save: IV followed by the
CBC encryption of the padded content. -/
def encrypt_blob (E : AESfun) (key iv c : List Nat) : List Nat :=
  iv ++ cbcEnc E key iv (pad255 c)

/-- The _decrypt method: empty input yields empty plaintext; otherwise the
first 16 bytes are the IV, the rest is CBC-decrypted and the plaintext is
cut at the first byte 255.  none models an uncaught exception (a short IV
rejected by AES.new, a misaligned ciphertext rejected by obj.decrypt, or
x.index(255) raising ValueError when no sentinel is found). -/
def decrypt_blob (D : AESfun) (key blob : List Nat) : Option (List Nat) :=
  if blob.length = 0 then some []
  else if blob.length < 16 then none
  else if (blob.length - 16) % 16 ≠ 0 then none
  else
    let x := cbcDec D key (blob.take 16) (blob.drop 16)
    match idx255 x with
    | none => none
    | some i => some (x.take i)

/-- A single-byte modification of a blob: xor the first byte with d. -/
def tamper0 (d : Nat) : List Nat → List Nat
  | [] => []
  | x :: xs => (x ^^^ d) :: xs

/-- Split a character list at every occurrence of sep, keeping empty
parts, exactly like the Python str.split(sep) with an explicit separator:
the result always has at least one part. -/
def split_on (sep : Char) : List Char → List (List Char)
  | [] => [[]]
  | c :: rest =>
    if c = sep then [] :: split_on sep rest
    else
      match split_on sep rest with
      | [] => [[c]]
      | p :: ps => (c :: p) :: ps

/-- Value of a decimal digit string (accumulator form); none if any
character is not a decimal digit. -/
def digitsValAux (acc : Nat) : List Char → Option Nat
  | [] => some acc
  | c :: rest =>
    if 48 ≤ c.toNat ∧ c.toNat ≤ 57 then digitsValAux (acc * 10 + (c.toNat - 48)) rest
    else none

/-- The Python int(s) conversion on a token, restricted to its core
behaviour: an optional sign followed by a nonempty run of decimal digits;
none models the ValueError raised on anything else. -/
def pyIntChars : List Char → Option Int
  | [] => none
  | '-' :: rest =>
    if rest = [] then none else (digitsValAux 0 rest).map (fun n => -(n : Int))
  | '+' :: rest =>
    if rest = [] then none else (digitsValAux 0 rest).map (fun n => (n : Int))
  | l => (digitsValAux 0 l).map (fun n => (n : Int))

/-- Option-valued map over a list: the Python list comprehension
[int(c) for c in x_list], where any failing conversion raises. -/
def mapOpt {α β : Type} (f : α → Option β) : List α → Option (List β)
  | [] => some []
  | a :: as =>
    match f a, mapOpt f as with
    | some b, some bs => some (b :: bs)
    | _, _ => none

/-- The hard-coded AES key bytes([int(i%5==0) for i in range(16)]) from
_get_password. -/
def fixedKey : List Nat := (List.range 16).map (fun i => if i % 5 = 0 then 1 else 0)

/-- The all-zero IV bytes([0 for _ in range(16)]) from _get_password. -/
def zeros16 : List Nat := List.replicate 16 0

/-- Key derivation performed by _get_password: split the passphrase on
dots, cycle the parts to 16, convert each part with int(), build a
16-byte prekey (bytes() requires each value in [0, 256)) and encrypt it
in CBC mode under the fixed key and zero IV.  none models the uncaught
ValueError on a part that is not an integer or is out of byte range. -/
def derive (E : AESfun) (pass : List Char) : Option (List Nat) :=
  let parts := split_on '.' pass
  let cyc := (List.flatten (List.replicate 16 parts)).take 16
  match mapOpt pyIntChars cyc with
  | none => none
  | some vals =>
    if ∀ v ∈ vals, 0 ≤ v ∧ v < 256 then
      some (cbcEnc E fixedKey zeros16 (vals.map Int.toNat))
    else none

/-- The in-memory record container.  self.content_lines is normally a
Python list of byte strings; _delete_all replaces it with the empty
bytearray() (the only place a non-list value is ever assigned). -/
inductive Container where
  | lines (l : List (List Nat))
  | rawEmpty
deriving DecidableEq

/-- Iterating or measuring the container: a list yields its records, the
empty bytearray yields nothing. -/
def linesOf : Container → List (List Nat)
  | .lines l => l
  | .rawEmpty => []

/-- The mutable session state of a PasswordHandler object: derived key,
decrypted content blob, record container, and the bytes of the store
file on disk (none when the file does not exist). -/
structure Session where
  key : List Nat
  content : List Nat
  content_lines : Container
  file : Option (List Nat)
deriving DecidableEq

/-- Byte codes of a character string, as produced by the ascii codec. -/
def bytesOf (msg : List Char) : List Nat := msg.map Char.toNat

/-- Whether every character is ASCII; bytearray(msg, encoding=ascii)
raises UnicodeEncodeError exactly when this is false. -/
def isAscii (msg : List Char) : Bool := msg.all (fun c => decide (c.toNat < 128))

/-- Newline join of the record list, as in b-newline.join(lines). -/
def joinB : List (List Nat) → List Nat
  | [] => []
  | [x] => x
  | x :: y :: rest => x ++ 10 :: joinB (y :: rest)

/-- Space join of argument tokens, as in the space.join(params) of _write. -/
def join_sp : List (List Char) → List Char
  | [] => []
  | [x] => x
  | x :: y :: rest => x ++ ' ' :: join_sp (y :: rest)

/-- The _get_first helper: first element or the empty-string default. -/
def get_first (l : List (List Char)) : List Char :=
  match l with
  | [] => []
  | x :: _ => x

/-- The _get_second helper: second element or the empty-string default. -/
def get_second (l : List (List Char)) : List Char :=
  match l with
  | _ :: x :: _ => x
  | _ => []

/-- The _validate_row method: parse the row token with int() (the failure
is caught and reported), then range-check it against the current number
of records.  none means a message was printed and nothing happens. -/
def validate_row (ls : List (List Nat)) (row : List Char) : Option Nat :=
  match pyIntChars row with
  | none => none
  | some r => if r < 0 ∨ (ls.length : Int) ≤ r then none else some r.toNat

/-- The _delete_row method: validate the first parameter, then replace
the record list by lines[:row] + lines[row+1:] and re-join the content.
The Bool is true when an error message was printed. -/
def delete_row (s : Session) (params : List (List Char)) : Session × Bool :=
  match validate_row (linesOf s.content_lines) (get_first params) with
  | none => (s, true)
  | some r =>
    let ls := linesOf s.content_lines
    let ls2 := ls.take r ++ ls.drop (r + 1)
    ({ s with content_lines := .lines ls2, content := joinB ls2 }, false)

/-- The _write method: join the tokens with spaces, encode as ASCII (a
UnicodeEncodeError is caught and reported), and if nonempty append one
record; appending onto the bytearray container left by _delete_all
raises TypeError, which the same except clause catches and reports.
The Bool is true when the error message was printed. -/
def write_row (s : Session) (params : List (List Char)) : Session × Bool :=
  let msg := join_sp params
  if isAscii msg then
    if msg = [] then (s, false)
    else
      match s.content_lines with
      | .lines l =>
        let l2 := l ++ [bytesOf msg]
        ({ s with content_lines := .lines l2, content := joinB l2 }, false)
      | .rawEmpty => (s, true)
  else (s, true)

/-- The _read method: start row (default 0) and end row (default the
number of records) are converted with int(); a failing conversion is NOT
caught, so none models the process crash.  On success it returns the
indexed records that are printed. -/
def read_rows (ls : List (List Nat)) (params : List (List Char)) : Option (List (Nat × List Nat)) :=
  match (if get_first params = [] then some 0 else pyIntChars (get_first params)) with
  | none => none
  | some st =>
    match (if get_second params = [] then some (ls.length : Int) else pyIntChars (get_second params)) with
    | none => none
    | some en =>
      some (ls.enum.filter (fun p => decide (st ≤ (p.1 : Int)) && decide ((p.1 : Int) < en)))

/-- The _find method: re.compile(pattern, re.IGNORECASE) is modelled by
an abstract compiler returning a matcher on record bytes; an invalid
pattern (compile = none) raises re.error, which is NOT caught, so the
result none models the process crash. -/
def find_rows (compile : List Char → Option (List Nat → Bool))
    (ls : List (List Nat)) (params : List (List Char)) : Option (List (Nat × List Nat)) :=
  match compile (get_first params) with
  | none => none
  | some m => some (ls.enum.filter (fun p => m p.2))

/-- The _delete_all method after its y/n confirmation prompt: on the
answer y the content becomes empty and the record container becomes the
empty bytearray(); any other answer changes nothing. -/
def delete_all (s : Session) (ans : List Char) : Session :=
  if ans = ['y'] then { s with content := [], content_lines := .rawEmpty }
  else s

/-- The _change_key method: it only calls _get_password, replacing the
in-memory key; none models the uncaught ValueError when the new
passphrase does not parse. -/
def change_key (E : AESfun) (s : Session) (pass : List Char) : Option Session :=
  (derive E pass).map (fun k => { s with key := k })

/-- The _encrypt method: draw an IV, pad self.content IN PLACE with
sentinel bytes (the assignment on line 213 of the source mutates the
session), and CBC-encrypt the padded content.  Returns the updated
session together with the (iv, ciphertext) pair handed to _save. -/
def encrypt_step (E : AESfun) (s : Session) (iv : List Nat) : Session × (List Nat × List Nat) :=
  let padded := pad255 s.content
  ({ s with content := padded }, (iv, cbcEnc E s.key iv padded))

/-- The _save method: run _encrypt, then write iv+ciphertext to the
file.  The file write is not guarded by any try block, so a failing
write (writeOk = false) raises an uncaught IOError: none models the
resulting process crash. -/
def save_cmd (E : AESfun) (s : Session) (iv : List Nat) (writeOk : Bool) : Option Session :=
  let sp := encrypt_step E s iv
  if writeOk then some { sp.1 with file := some (sp.2.1 ++ sp.2.2) } else none

/-- Character codes 48-57, the string.digits alphabet. -/
def digit_codes : List Nat := List.range' 48 10

/-- Character codes 97-122, the string.ascii_lowercase alphabet. -/
def lower_codes : List Nat := List.range' 97 26

/-- Character codes 65-90, the string.ascii_uppercase alphabet. -/
def upper_codes : List Nat := List.range' 65 26

/-- The 32 codes of string.punctuation: 33-47, 58-64, 91-96, 123-126. -/
def punct_codes : List Nat :=
  List.range' 33 15 ++ List.range' 58 7 ++ List.range' 91 6 ++ List.range' 123 4

/-- The candidate alphabet digits + lowercase + uppercase + punctuation,
in the order built by _generate_password. -/
def genChars : List Nat := digit_codes ++ lower_codes ++ upper_codes ++ punct_codes

/-- Whether a byte is a decimal digit character. -/
def isDigitB (n : Nat) : Bool := decide (48 ≤ n ∧ n ≤ 57)

/-- Whether a byte is a lowercase ASCII letter. -/
def isLowerB (n : Nat) : Bool := decide (97 ≤ n ∧ n ≤ 122)

/-- Whether a byte is an uppercase ASCII letter. -/
def isUpperB (n : Nat) : Bool := decide (65 ≤ n ∧ n ≤ 90)

/-- Whether a byte is an ASCII punctuation character. -/
def isPunctB (n : Nat) : Bool :=
  decide ((33 ≤ n ∧ n ≤ 47) ∨ (58 ≤ n ∧ n ≤ 64) ∨ (91 ≤ n ∧ n ≤ 96) ∨ (123 ≤ n ∧ n ≤ 126))

/-- The acceptance test of the rejection loop: the four re.search calls
of _generate_password require one character of each alphabet. -/
def good_pwd (pwd : List Nat) : Bool :=
  pwd.any isDigitB && pwd.any isLowerB && pwd.any isUpperB && pwd.any isPunctB

/-- The rejection-sampling loop of _generate_password: each round draws
k characters from genChars through the random stream rand (one draw per
call of random.choices), and the first sample passing good_pwd is
returned.  The fuel bounds the number of rounds the model runs; none
means the loop was still running. -/
def gen_loop (rand : Nat → Nat) (k : Nat) : Nat → Nat → Option (List Nat)
  | 0, _ => none
  | fuel + 1, off =>
    let pwd := (List.range k).map (fun j => genChars.getD (rand (off + j) % genChars.length) 0)
    if good_pwd pwd then some pwd else gen_loop rand k fuel (off + k)

/-- Requested-length handling of _generate_password: an absent argument
defaults to 8, then k = max(k, 4); a non-integer argument raises an
uncaught ValueError (none). -/
def gen_k (params : List (List Char)) : Option Nat :=
  match get_first params with
  | [] => some 8
  | tok => (pyIntChars tok).map (fun r => (max r 4).toNat)

/-- Tokenization performed by inp.split() in the command loop: split on
spaces and drop empty tokens. -/
def tokenize (inp : List Char) : List (List Char) :=
  (split_on ' ' inp).filter (fun t => t ≠ [])

/-- Result of processing one REPL input line. -/
inductive StepRes where
  | crashed
  | running (s : Session)
  | exited (s : Session)
deriving DecidableEq

/-- One iteration of the _start command loop.  aux is the answer the
user would give to a nested input() prompt (quit confirmation or
delete-all confirmation), pass the passphrase typed at a change command,
iv the randomness a save would draw, writeOk whether the file write
would succeed.  An empty line is skipped; a whitespace-only line crashes
(inp.split()[0] raises IndexError); a handler that raises an uncaught
exception crashes the process, everything else keeps the loop running. -/
def repl_step (compile : List Char → Option (List Nat → Bool)) (E : AESfun)
    (aux pass : List Char) (iv : List Nat) (writeOk : Bool)
    (s : Session) (inp : List Char) : StepRes :=
  if inp = [] then .running s
  else
    match tokenize inp with
    | [] => .crashed
    | x0 :: params =>
      if x0 = ['q'] then
        if aux = ['y'] then
          match save_cmd E s iv writeOk with
          | some s2 => .exited s2
          | none => .crashed
        else if aux = ['n'] then .exited s
        else .running s
      else if x0 = ['q', '!'] then .exited s
      else if x0 = ['w', 'q'] ∨ x0 = ['s', 'q'] then
        match save_cmd E s iv writeOk with
        | some s2 => .exited s2
        | none => .crashed
      else if x0 = ['r'] ∨ x0 = ['r', 'e', 'a', 'd'] then
        match read_rows (linesOf s.content_lines) params with
        | some _ => .running s
        | none => .crashed
      else if x0 = ['w'] ∨ x0 = ['w', 'r', 'i', 't', 'e'] then
        .running (write_row s params).1
      else if x0 = ['D'] ∨ x0 = ['D', 'E', 'L', 'E', 'T', 'E'] then
        .running (delete_all s aux)
      else if x0 = ['d'] ∨ x0 = ['d', 'e', 'l', 'e', 't', 'e'] then
        .running (delete_row s params).1
      else if x0 = ['f'] ∨ x0 = ['f', 'i', 'n', 'd'] then
        match find_rows compile (linesOf s.content_lines) params with
        | some _ => .running s
        | none => .crashed
      else if x0 = ['g', 'e', 'n'] ∨ x0 = ['g', 'e', 'n', 'e', 'r', 'a', 't', 'e'] then
        match gen_k params with
        | some _ => .running s
        | none => .crashed
      else if x0 = ['c'] ∨ x0 = ['c', 'l', 'e', 'a', 'r'] then .running s
      else if x0 = ['s'] ∨ x0 = ['s', 'a', 'v', 'e'] then
        match save_cmd E s iv writeOk with
        | some s2 => .running s2
        | none => .crashed
      else if x0 = ['c', 'h', 'a', 'n', 'g', 'e'] then
        match change_key E s pass with
        | some s2 => .running s2
        | none => .crashed
      else .running s

/-- Sequential application of _write commands, one parameter list per
call, used to describe every insert performed after a delete-all. -/
def apply_writes (s : Session) (wss : List (List (List Char))) : Session :=
  wss.foldl (fun t ps => (write_row t ps).1) s

/-- A concrete 16-byte key for witnesses. -/
def K0 : List Nat := List.replicate 16 7

/-- The all-zero IV as a concrete witness IV. -/
def IV0 : List Nat := List.replicate 16 0

/-- A second concrete 16-byte IV. -/
def IV1 : List Nat := List.range 16

/-- The key _get_password derives from the passphrase 1 under the xor
cipher. -/
def K1 : List Nat := (derive xorAES ['1']).getD []

/-- The key _get_password derives from the passphrase 2 under the xor
cipher. -/
def K2 : List Nat := (derive xorAES ['2']).getD []

/-- A session with an empty store. -/
def S0 : Session := { key := [], content := [], content_lines := .lines [], file := none }

/-- A session holding the single one-byte record a. -/
def S5 : Session := { key := K0, content := [97], content_lines := .lines [[97]], file := none }

/-- A session whose file on disk holds its content encrypted under the
key derived from the passphrase 1 (the state right after a save). -/
def S3 : Session :=
  { key := K1, content := [97], content_lines := .lines [[97]],
    file := some (encrypt_blob xorAES K1 IV0 [97]) }

/-- The session S3 after a change command that derived the key for the
passphrase 2. -/
def S3b : Session := { S3 with key := K2 }

/-- Record bytes of the word alpha. -/
def alphaRec : List Nat := [97, 108, 112, 104, 97]

/-- Record bytes of the word beta. -/
def betaRec : List Nat := [98, 101, 116, 97]

/-- Record bytes of the word gamma. -/
def gammaRec : List Nat := [103, 97, 109, 109, 97]

/-- A session with the records alpha, beta, gamma. -/
def S8 : Session :=
  { key := [], content := joinB [alphaRec, betaRec, gammaRec],
    content_lines := .lines [alphaRec, betaRec, gammaRec], file := none }

/-- A regex compiler that rejects every pattern, instantiating the
abstract re.compile on an invalid pattern. -/
def noCompile : List Char → Option (List Nat → Bool) := fun _ => none

/-- Length of a bytewise xor. -/
theorem length_xorB (a b : List Nat) : (xorB a b).length = min a.length b.length := by
  simp [xorB]

/-- Xoring twice with the same equally-long mask is the identity. -/
theorem xorB_cancel : ∀ (a b : List Nat), a.length = b.length → xorB a (xorB a b) = b
  | [], [], _ => rfl
  | [], _ :: _, h => by simp at h
  | _ :: _, [], h => by simp at h
  | a :: as, b :: bs, h => by
    simp only [xorB, List.zipWith_cons_cons]
    refine congrArg₂ (· :: ·) ?_ (xorB_cancel as bs (by simpa using h))
    rw [← Nat.xor_assoc, Nat.xor_self, Nat.zero_xor]

/-- CBC encryption preserves the length of a block-aligned plaintext. -/
theorem cbcEncF_length (E : AESfun) (key : List Nat)
    (hE : ∀ b : List Nat, b.length = 16 → (E key b).length = 16) :
    ∀ (fuel : Nat) (prev p : List Nat), p.length ≤ fuel → 16 ∣ p.length →
      prev.length = 16 → (cbcEncF E key fuel prev p).length = p.length := by
  intro fuel
  induction fuel with
  | zero =>
    intro prev p hle _ _
    have hp : p = [] := List.eq_nil_of_length_eq_zero (Nat.le_zero.mp hle)
    subst hp; rfl
  | succ fuel ih =>
    intro prev p hle hdvd hprev
    by_cases hp : p = []
    · subst hp; simp [cbcEncF]
    · have hplen : 16 ≤ p.length := by
        have := List.length_pos.mpr hp
        exact Nat.le_of_dvd this hdvd
      have htake : (p.take 16).length = 16 := by simp [List.length_take]; omega
      have hxlen : (xorB prev (p.take 16)).length = 16 := by
        rw [length_xorB, hprev, htake]; rfl
      have hclen : (E key (xorB prev (p.take 16))).length = 16 := hE _ hxlen
      have hrest := ih (E key (xorB prev (p.take 16))) (p.drop 16)
        (by simp [List.length_drop]; omega)
        (by simp [List.length_drop]; exact Nat.dvd_sub' hdvd (dvd_refl 16)) hclen
      simp only [cbcEncF, if_neg hp, List.length_append, hclen, hrest,
        List.length_drop]
      omega

/-- CBC decryption with the matching IV undoes CBC encryption on a
block-aligned plaintext, given the block-cipher inverse property. -/
theorem cbcDecF_cbcEncF (E D : AESfun) (key : List Nat)
    (hE : ∀ b : List Nat, b.length = 16 → (E key b).length = 16)
    (hD : ∀ b : List Nat, b.length = 16 → D key (E key b) = b) :
    ∀ (fuel : Nat) (prev p : List Nat), p.length ≤ fuel → 16 ∣ p.length →
      prev.length = 16 →
      cbcDecF D key fuel prev (cbcEncF E key fuel prev p) = p := by
  intro fuel
  induction fuel with
  | zero =>
    intro prev p hle _ _
    have hp : p = [] := List.eq_nil_of_length_eq_zero (Nat.le_zero.mp hle)
    subst hp; rfl
  | succ fuel ih =>
    intro prev p hle hdvd hprev
    by_cases hp : p = []
    · subst hp; simp [cbcEncF, cbcDecF]
    · have hplen : 16 ≤ p.length := by
        have := List.length_pos.mpr hp
        exact Nat.le_of_dvd this hdvd
      have htake : (p.take 16).length = 16 := by simp [List.length_take]; omega
      have hxlen : (xorB prev (p.take 16)).length = 16 := by
        rw [length_xorB, hprev, htake]; rfl
      have hclen : (E key (xorB prev (p.take 16))).length = 16 := hE _ hxlen
      have hcne : E key (xorB prev (p.take 16)) ≠ [] := by
        intro h; rw [h] at hclen; simp at hclen
      have happne : E key (xorB prev (p.take 16)) ++
          cbcEncF E key fuel (E key (xorB prev (p.take 16))) (p.drop 16) ≠ [] := by
        simp [hcne]
      simp only [cbcEncF, if_neg hp, cbcDecF, if_neg happne,
        List.take_left' hclen, List.drop_left' hclen]
      rw [hD _ hxlen, xorB_cancel prev (p.take 16) (by rw [hprev, htake]),
        ih _ _ (by simp [List.length_drop]; omega)
          (by simp [List.length_drop]; exact Nat.dvd_sub' hdvd (dvd_refl 16)) hclen,
        List.take_append_drop]

/-- CBC decryption with a different IV corrupts exactly the first block:
the result is the first plaintext block xored with the two IVs, followed
by the untouched remaining blocks. -/
theorem cbcDecF_cbcEncF_wrongIV (E D : AESfun) (key : List Nat)
    (hE : ∀ b : List Nat, b.length = 16 → (E key b).length = 16)
    (hD : ∀ b : List Nat, b.length = 16 → D key (E key b) = b)
    (fuel : Nat) (prev prev2 p : List Nat) (hp : p ≠ []) (hle : p.length ≤ fuel)
    (hdvd : 16 ∣ p.length) (hprev : prev.length = 16) :
    cbcDecF D key fuel prev2 (cbcEncF E key fuel prev p) =
      xorB prev2 (xorB prev (p.take 16)) ++ p.drop 16 := by
  cases fuel with
  | zero =>
    exact absurd (List.eq_nil_of_length_eq_zero (Nat.le_zero.mp hle)) hp
  | succ fuel =>
    have hplen : 16 ≤ p.length := by
      have := List.length_pos.mpr hp
      exact Nat.le_of_dvd this hdvd
    have htake : (p.take 16).length = 16 := by simp [List.length_take]; omega
    have hxlen : (xorB prev (p.take 16)).length = 16 := by
      rw [length_xorB, hprev, htake]; rfl
    have hclen : (E key (xorB prev (p.take 16))).length = 16 := hE _ hxlen
    have hcne : E key (xorB prev (p.take 16)) ≠ [] := by
      intro h; rw [h] at hclen; simp at hclen
    have happne : E key (xorB prev (p.take 16)) ++
        cbcEncF E key fuel (E key (xorB prev (p.take 16))) (p.drop 16) ≠ [] := by
      simp [hcne]
    simp only [cbcEncF, if_neg hp, cbcDecF, if_neg happne,
      List.take_left' hclen, List.drop_left' hclen]
    rw [hD _ hxlen,
      cbcDecF_cbcEncF E D key hE hD _ _ _ (by simp [List.length_drop]; omega)
        (by simp [List.length_drop]; exact Nat.dvd_sub' hdvd (dvd_refl 16)) hclen]

/-- Wrapper: CBC encryption preserves the length of aligned plaintext. -/
theorem cbcEnc_length (E : AESfun) (key iv p : List Nat)
    (hE : ∀ b : List Nat, b.length = 16 → (E key b).length = 16)
    (hdvd : 16 ∣ p.length) (hiv : iv.length = 16) :
    (cbcEnc E key iv p).length = p.length :=
  cbcEncF_length E key hE p.length iv p le_rfl hdvd hiv

/-- Wrapper: CBC roundtrip on aligned plaintext. -/
theorem cbcDec_cbcEnc (E D : AESfun) (key iv p : List Nat)
    (hE : ∀ b : List Nat, b.length = 16 → (E key b).length = 16)
    (hD : ∀ b : List Nat, b.length = 16 → D key (E key b) = b)
    (hdvd : 16 ∣ p.length) (hiv : iv.length = 16) :
    cbcDec D key iv (cbcEnc E key iv p) = p := by
  unfold cbcDec cbcEnc
  rw [cbcEncF_length E key hE p.length iv p le_rfl hdvd hiv]
  exact cbcDecF_cbcEncF E D key hE hD p.length iv p le_rfl hdvd hiv

/-- The sentinel scan finds the first 255 exactly after a 255-free
prefix. -/
theorem idx255_append (l r : List Nat) (h : ∀ x ∈ l, x ≠ 255) :
    idx255 (l ++ 255 :: r) = some l.length := by
  induction l with
  | nil => simp [idx255]
  | cons a l ih =>
    have ha : a ≠ 255 := h a (by simp)
    have ih2 : idx255 (l.append (255 :: r)) = some l.length :=
      ih (fun x hx => h x (by simp [hx]))
    simp only [List.cons_append, idx255, if_neg ha, ih2]
    rfl

/-- The padded content always has block-aligned length. -/
theorem pad255_length_dvd (c : List Nat) : 16 ∣ (pad255 c).length := by
  simp only [pad255, List.length_append, List.length_replicate]
  omega

/-- mapOpt preserves length on success. -/
theorem mapOpt_length {α β : Type} (f : α → Option β) :
    ∀ (l : List α) (bs : List β), mapOpt f l = some bs → bs.length = l.length := by
  intro l
  induction l with
  | nil => intro bs h; simp [mapOpt] at h; simp [← h]
  | cons a as ih =>
    intro bs h
    simp only [mapOpt] at h
    cases hfa : f a with
    | none => rw [hfa] at h; simp at h
    | some b =>
      rw [hfa] at h
      cases hrest : mapOpt f as with
      | none => rw [hrest] at h; simp at h
      | some bs2 =>
        rw [hrest] at h
        simp only [Option.some.injEq] at h
        rw [← h]
        simp [ih bs2 hrest]

/-- Splitting never produces an empty part list (str.split keeps at
least one part). -/
theorem split_on_ne_nil (sep : Char) : ∀ l, split_on sep l ≠ []
  | [] => by simp [split_on]
  | c :: rest => by
    by_cases h : c = sep
    · simp [split_on, h]
    · simp only [split_on, if_neg h]
      cases split_on sep rest <;> simp

/-- Length of a flattened replicate. -/
theorem flatten_replicate_length {α : Type} (n : Nat) (l : List α) :
    ((List.replicate n l).flatten).length = n * l.length := by
  induction n with
  | zero => simp
  | succ n ih => simp [List.replicate_succ, ih, Nat.succ_mul]; omega

/-- Decomposition of the padding when the content length is not a
multiple of 16: at least one sentinel byte is appended. -/
theorem pad255_split (C : List Nat) (hlen : C.length % 16 ≠ 0) :
    pad255 C = C ++ 255 :: List.replicate ((16 - C.length % 16) % 16 - 1) 255 := by
  rw [pad255]
  have h : (16 - C.length % 16) % 16 = ((16 - C.length % 16) % 16 - 1) + 1 := by omega
  conv_lhs => rw [h]
  rw [List.replicate_succ]

/-- Core roundtrip fact: decrypting an encryption recovers the content
whenever the content has no sentinel byte and its length is not a
multiple of the block size. -/
theorem decrypt_encrypt (E D : AESfun) (key iv C : List Nat)
    (hE : ∀ b : List Nat, b.length = 16 → (E key b).length = 16)
    (hD : ∀ b : List Nat, b.length = 16 → D key (E key b) = b)
    (hiv : iv.length = 16)
    (h255 : ∀ x ∈ C, x ≠ 255)
    (hlen : C.length % 16 ≠ 0) :
    decrypt_blob D key (encrypt_blob E key iv C) = some C := by
  have hdvd : 16 ∣ (pad255 C).length := pad255_length_dvd C
  have hctlen : (cbcEnc E key iv (pad255 C)).length = (pad255 C).length :=
    cbcEnc_length E key iv _ hE hdvd hiv
  have hbloblen : (iv ++ cbcEnc E key iv (pad255 C)).length = 16 + (pad255 C).length := by
    simp [hiv, hctlen]
  have hlen0 : ¬ ((iv ++ cbcEnc E key iv (pad255 C)).length = 0) := by omega
  have hlt : ¬ ((iv ++ cbcEnc E key iv (pad255 C)).length < 16) := by omega
  have hmod : ¬ (((iv ++ cbcEnc E key iv (pad255 C)).length - 16) % 16 ≠ 0) := by
    rw [hbloblen]
    omega
  rw [encrypt_blob]
  simp only [decrypt_blob, if_neg hlen0, if_neg hlt, if_neg hmod,
    List.take_left' hiv, List.drop_left' hiv,
    cbcDec_cbcEnc E D key iv (pad255 C) hE hD hdvd hiv]
  rw [pad255_split C hlen, idx255_append C _ h255]
  simp [List.take_left]

/-- tamper0 preserves the length. -/
theorem length_tamper0 (d : Nat) (l : List Nat) : (tamper0 d l).length = l.length := by
  cases l <;> simp [tamper0]

/-- tamper0 of an append acts on the nonempty left part. -/
theorem tamper0_append (d : Nat) (a b : List Nat) (ha : a ≠ []) :
    tamper0 d (a ++ b) = tamper0 d a ++ b := by
  cases a with
  | nil => exact absurd rfl ha
  | cons x xs => simp [tamper0]

/-- Xoring with a first-byte-modified mask recovers the plaintext block
with its own first byte modified the same way. -/
theorem xorB_tamper (d : Nat) (a t : List Nat) (hlen : a.length = t.length) (ha : a ≠ []) :
    xorB (tamper0 d a) (xorB a t) = tamper0 d t := by
  cases a with
  | nil => exact absurd rfl ha
  | cons x xs =>
    cases t with
    | nil => simp at hlen
    | cons y ys =>
      simp only [tamper0, xorB, List.zipWith_cons_cons]
      refine congrArg₂ (· :: ·) ?_ (xorB_cancel xs ys (by simpa using hlen))
      rw [Nat.xor_comm x d, Nat.xor_assoc, ← Nat.xor_assoc x x y, Nat.xor_self,
        Nat.zero_xor, Nat.xor_comm d y]

/-- Modifying the first byte of a nonempty list commutes with splitting
it at the block boundary. -/
theorem tamper0_take_append (d : Nat) (p : List Nat) (hp : p ≠ []) :
    tamper0 d (p.take 16) ++ p.drop 16 = tamper0 d p := by
  cases p with
  | nil => exact absurd rfl hp
  | cons x xs =>
    show ((x ^^^ d) :: xs.take 15) ++ xs.drop 15 = (x ^^^ d) :: xs
    simp [List.take_append_drop]

/-- Core tamper fact: flipping the first IV byte of a produced blob by
xor with d makes decrypt silently return the content with its first byte
xored by d (no error of any kind is raised). -/
theorem decrypt_tampered (E D : AESfun) (key iv : List Nat) (b d : Nat) (rest : List Nat)
    (hE : ∀ x : List Nat, x.length = 16 → (E key x).length = 16)
    (hD : ∀ x : List Nat, x.length = 16 → D key (E key x) = x)
    (hiv : iv.length = 16)
    (h255 : ∀ x ∈ b :: rest, x ≠ 255)
    (hlen : (b :: rest).length % 16 ≠ 0)
    (hbd : b ^^^ d ≠ 255) :
    decrypt_blob D key (tamper0 d (encrypt_blob E key iv (b :: rest))) =
      some ((b ^^^ d) :: rest) := by
  have hpne : pad255 (b :: rest) ≠ [] := by simp [pad255]
  have hdvd := pad255_length_dvd (b :: rest)
  have hplen16 : 16 ≤ (pad255 (b :: rest)).length := by
    have := List.length_pos.mpr hpne
    exact Nat.le_of_dvd this hdvd
  have hctlen : (cbcEnc E key iv (pad255 (b :: rest))).length = (pad255 (b :: rest)).length :=
    cbcEnc_length E key iv _ hE hdvd hiv
  have hivne : iv ≠ [] := by intro h; rw [h] at hiv; simp at hiv
  have hts : tamper0 d (encrypt_blob E key iv (b :: rest)) =
      tamper0 d iv ++ cbcEnc E key iv (pad255 (b :: rest)) := by
    rw [encrypt_blob, tamper0_append d iv _ hivne]
  have hiv2 : (tamper0 d iv).length = 16 := by rw [length_tamper0, hiv]
  have hbl : (tamper0 d iv ++ cbcEnc E key iv (pad255 (b :: rest))).length =
      16 + (pad255 (b :: rest)).length := by simp [hiv2, hctlen]
  have hlen0 : ¬ ((tamper0 d iv ++ cbcEnc E key iv (pad255 (b :: rest))).length = 0) := by omega
  have hlt : ¬ ((tamper0 d iv ++ cbcEnc E key iv (pad255 (b :: rest))).length < 16) := by omega
  have hmod : ¬ (((tamper0 d iv ++ cbcEnc E key iv (pad255 (b :: rest))).length - 16) % 16 ≠ 0) := by
    rw [hbl]; omega
  rw [hts]
  simp only [decrypt_blob, if_neg hlen0, if_neg hlt, if_neg hmod,
    List.take_left' hiv2, List.drop_left' hiv2]
  have hx : cbcDec D key (tamper0 d iv) (cbcEnc E key iv (pad255 (b :: rest))) =
      xorB (tamper0 d iv) (xorB iv ((pad255 (b :: rest)).take 16)) ++
        (pad255 (b :: rest)).drop 16 := by
    unfold cbcDec cbcEnc
    rw [cbcEncF_length E key hE _ iv _ le_rfl hdvd hiv]
    exact cbcDecF_cbcEncF_wrongIV E D key hE hD _ iv (tamper0 d iv) _ hpne le_rfl hdvd hiv
  have htlen : iv.length = ((pad255 (b :: rest)).take 16).length := by
    rw [hiv, List.length_take]; omega
  rw [hx, xorB_tamper d iv _ htlen hivne, tamper0_take_append d _ hpne]
  have hpadt : tamper0 d (pad255 (b :: rest)) =
      ((b ^^^ d) :: rest) ++
        255 :: List.replicate ((16 - (b :: rest).length % 16) % 16 - 1) 255 := by
    rw [pad255_split _ hlen]
    simp [tamper0, List.cons_append]
  have h255b : ∀ x ∈ (b ^^^ d) :: rest, x ≠ 255 := by
    intro x hx2
    rcases List.mem_cons.mp hx2 with h | h
    · rw [h]; exact hbd
    · exact h255 x (List.mem_cons_of_mem _ h)
  rw [hpadt, idx255_append _ _ h255b]
  simp [List.take_left]

/-- Whenever _get_password succeeds, the derived key has the block
length 16 required by AES, given that the block cipher maps 16-byte
blocks to 16-byte blocks under the hard-coded prekey-encryption key. -/
theorem derive_length (E : AESfun)
    (hE : ∀ b : List Nat, b.length = 16 → (E fixedKey b).length = 16) :
    ∀ (pass : List Char) (k : List Nat), derive E pass = some k → k.length = 16 := by
  intro pass k h
  simp only [derive] at h
  cases hm : mapOpt pyIntChars ((List.flatten (List.replicate 16 (split_on '.' pass))).take 16) with
  | none => rw [hm] at h; simp at h
  | some vals =>
    rw [hm] at h
    have h2 : (if ∀ v ∈ vals, 0 ≤ v ∧ v < 256 then
        some (cbcEnc E fixedKey zeros16 (vals.map Int.toNat)) else none) = some k := h
    by_cases hall : ∀ v ∈ vals, 0 ≤ v ∧ v < 256
    · rw [if_pos hall] at h2
      have hcyc : ((List.flatten (List.replicate 16 (split_on '.' pass))).take 16).length = 16 := by
        rw [List.length_take, flatten_replicate_length]
        have := List.length_pos.mpr (split_on_ne_nil '.' pass)
        omega
      have hv : vals.length = 16 := by
        rw [mapOpt_length pyIntChars _ _ hm, hcyc]
      have hk : k = cbcEnc E fixedKey zeros16 (vals.map Int.toNat) := (Option.some.inj h2).symm
      rw [hk, cbcEnc_length E fixedKey zeros16 _ hE
        (by rw [List.length_map, hv]) (by simp [zeros16])]
      rw [List.length_map, hv]
    · rw [if_neg hall] at h2
      simp at h2

/-- C1 (amended): decrypting an encryption returns exactly the original
content for every key, IV and content whose bytes avoid the sentinel
value 255 and whose length is not a multiple of the block size 16,
assuming the block cipher is a length-preserving invertible block map.
The two cases the original claim additionally asserted (block-aligned
length, contents containing the fill byte) are refuted by the
counterexample. -/
theorem C1_roundtrip_amended (E D : AESfun) (key iv C : List Nat)
    (hE : ∀ b : List Nat, b.length = 16 → (E key b).length = 16)
    (hD : ∀ b : List Nat, b.length = 16 → D key (E key b) = b)
    (hiv : iv.length = 16)
    (h255 : ∀ x ∈ C, x ≠ 255)
    (hlen : C.length % 16 ≠ 0) :
    decrypt_blob D key (encrypt_blob E key iv C) = some C :=
  decrypt_encrypt E D key iv C hE hD hiv h255 hlen

/-- C1 witness: the amended roundtrip evaluated at the xor cipher, a
concrete key, IV and the content 1,2,3. -/
theorem C1_roundtrip_amended_witness :
    decrypt_blob xorAES K0 (encrypt_blob xorAES K0 IV1 [1, 2, 3]) = some [1, 2, 3] :=
  C1_roundtrip_amended xorAES xorAES K0 IV1 [1, 2, 3]
    (fun b hb => by simp only [xorAES, length_xorB, hb]; decide)
    (fun b hb => xorB_cancel K0 b (by rw [hb]; decide))
    (by decide)
    (by decide)
    (by decide)

/-- C1 counterexample: the roundtrip FAILS exactly in the two cases the
claim singles out.  For a content of 16 bytes (no padding byte is
appended) decrypt raises (none, a ValueError from index(255)); for the
content consisting of the fill byte 255 decrypt silently returns the
empty string instead.  Both contradict decrypt(K, encrypt(K, C)) = C. -/
theorem C1_roundtrip_cex :
    decrypt_blob xorAES K0 (encrypt_blob xorAES K0 IV0 (List.replicate 16 1)) ≠
      some (List.replicate 16 1) ∧
    decrypt_blob xorAES K0 (encrypt_blob xorAES K0 IV0 [255]) ≠ some [255] := by
  decide

/-- C2 (amended): the envelope performs no authentication.  Modifying
the first blob byte (an IV byte) by xor with d makes decrypt silently
SUCCEED and return a plaintext whose first byte is xored by d — a
corrupted plaintext different from the encrypted one — rather than fail
with any error, for every content without sentinel bytes, of
non-block-aligned length, whose corrupted first byte avoids the
sentinel. -/
theorem C2_tamper_amended (E D : AESfun) (key iv : List Nat) (b d : Nat) (rest : List Nat)
    (hE : ∀ x : List Nat, x.length = 16 → (E key x).length = 16)
    (hD : ∀ x : List Nat, x.length = 16 → D key (E key x) = x)
    (hiv : iv.length = 16)
    (h255 : ∀ x ∈ b :: rest, x ≠ 255)
    (hlen : (b :: rest).length % 16 ≠ 0)
    (hd : d ≠ 0)
    (hbd : b ^^^ d ≠ 255) :
    decrypt_blob D key (tamper0 d (encrypt_blob E key iv (b :: rest))) =
      some ((b ^^^ d) :: rest) ∧ (b ^^^ d) :: rest ≠ b :: rest := by
  refine ⟨decrypt_tampered E D key iv b d rest hE hD hiv h255 hlen hbd, ?_⟩
  intro h
  have hbb : b ^^^ d = b := by injection h
  have h3 : b ^^^ (b ^^^ d) = b ^^^ b := congrArg (b ^^^ ·) hbb
  rw [← Nat.xor_assoc, Nat.xor_self, Nat.zero_xor] at h3
  exact hd h3

/-- C2 witness: the amended tamper statement evaluated at the xor
cipher, flipping the low bit of the first IV byte of an encryption of
the single byte 97. -/
theorem C2_tamper_amended_witness :
    decrypt_blob xorAES K0 (tamper0 1 (encrypt_blob xorAES K0 IV1 [97])) =
      some [97 ^^^ 1] ∧ [97 ^^^ 1] ≠ [97] :=
  C2_tamper_amended xorAES xorAES K0 IV1 97 1 []
    (fun x hx => by simp only [xorAES, length_xorB, hx]; decide)
    (fun x hx => xorB_cancel K0 x (by rw [hx]; decide))
    (by decide)
    (by decide)
    (by decide)
    (by decide)
    (by decide)

/-- C2 counterexample: a single-byte modification of a produced blob
for which decrypt does NOT fail at all: it silently returns the wrong
plaintext 96 in place of the encrypted 97, refuting the claim that every
single-byte modification makes decrypt fail with AuthenticationError. -/
theorem C2_tamper_cex :
    decrypt_blob xorAES K0 (tamper0 1 (encrypt_blob xorAES K0 IV0 [97])) = some [96] ∧
    ([96] : List Nat) ≠ [97] := by
  refine ⟨by decide, by decide⟩

/-- C4 (amended): key derivation is a pure function of the passphrase
(thus deterministic) and, whenever it completes, yields a key of the
cipher's required length 16; but it is NOT total — see the
counterexample — because every dot-separated part must parse as a
decimal integer in the byte range. -/
theorem C4_derive_amended (E : AESfun)
    (hE : ∀ b : List Nat, b.length = 16 → (E fixedKey b).length = 16)
    (pass : List Char) (k : List Nat) (h : derive E pass = some k) :
    k.length = 16 :=
  derive_length E hE pass k h

/-- C4 witness: derivation on the numeric passphrase 1.2 under the xor
cipher succeeds with a 16-byte key. -/
theorem C4_derive_amended_witness :
    ((derive xorAES ['1', '.', '2']).getD []).length = 16 :=
  C4_derive_amended xorAES
    (fun b hb => by simp only [xorAES, length_xorB, hb]; decide)
    ['1', '.', '2']
    ((derive xorAES ['1', '.', '2']).getD [])
    (by decide)

/-- C4 counterexample: derivation is not total.  On the passphrase a the
int() conversion raises an uncaught ValueError, and on the passphrase
300 the bytes() constructor rejects the out-of-range value — both crash
instead of completing, refuting totality for every input string. -/
theorem C4_derive_cex :
    derive xorAES ['a'] = none ∧ derive xorAES ['3', '0', '0'] = none := by
  refine ⟨by decide, by decide⟩

/-- C5 (amended): the encryption step of a save pads self.content in
place, so the stored Content IS altered by the encryption step whenever
its length is not a multiple of 16 (it gains the sentinel fill bytes);
the record list, key and file are untouched, and a failing file write
raises an uncaught IOError (modelled none) instead of returning. -/
theorem C5_save_amended (E : AESfun) (s : Session) (iv : List Nat) :
    (encrypt_step E s iv).1.content = pad255 s.content
    ∧ ((encrypt_step E s iv).1.content = s.content ↔ s.content.length % 16 = 0)
    ∧ (encrypt_step E s iv).1.content_lines = s.content_lines
    ∧ (encrypt_step E s iv).1.key = s.key
    ∧ (encrypt_step E s iv).1.file = s.file
    ∧ save_cmd E s iv false = none := by
  refine ⟨rfl, ?_, rfl, rfl, rfl, rfl⟩
  show pad255 s.content = s.content ↔ s.content.length % 16 = 0
  constructor
  · intro h
    have hl := congrArg List.length h
    simp only [pad255, List.length_append, List.length_replicate] at hl
    omega
  · intro h
    simp [pad255, h]

/-- C5 counterexample: encrypting during a save changes the in-memory
content of a session holding the single byte 97 (fifteen fill bytes are
appended), refuting the claim that the encryption step does not alter
the stored Content. -/
theorem C5_save_cex : (encrypt_step xorAES S5 IV0).1.content ≠ S5.content := by
  decide

/-- C3 (amended): the change command re-derives the key from the fresh
passphrase (when it parses) but performs NO save: content, record list
and the persisted file are all left untouched; the file is re-encrypted
under the new key only at the next explicit save. -/
theorem C3_change_amended (E : AESfun) (s : Session) (pass : List Char) (s2 : Session)
    (h : change_key E s pass = some s2) :
    s2.file = s.file ∧ s2.content = s.content ∧ s2.content_lines = s.content_lines ∧
      derive E pass = some s2.key := by
  unfold change_key at h
  cases hd : derive E pass with
  | none => rw [hd] at h; simp at h
  | some k =>
    rw [hd] at h
    simp only [Option.map_some'] at h
    have hs : s2 = { s with key := k } := (Option.some.inj h).symm
    subst hs
    refine ⟨rfl, rfl, rfl, ?_⟩
    simp [hd]

/-- C3 witness: the amended statement evaluated on the session S3 and
the fresh passphrase 2 under the xor cipher. -/
theorem C3_change_amended_witness :
    S3b.file = S3.file ∧ S3b.content = S3.content ∧ S3b.content_lines = S3.content_lines ∧
      derive xorAES ['2'] = some S3b.key :=
  C3_change_amended xorAES S3 ['2'] S3b (by decide)

/-- C3 counterexample: start from the state S3 reached right after a
save under the key for passphrase 1, and run change with passphrase 2.
The command succeeds, the persisted file is unchanged, and that file is
NOT the encryption of the current content under the new key for any
16-byte IV — the store is left persisted under the stale key, refuting
the claim that change immediately re-encrypts and saves. -/
theorem C3_change_cex :
    change_key xorAES S3 ['2'] = some S3b ∧ S3b.file = S3.file ∧
      ¬ ∃ iv, iv.length = 16 ∧
        S3b.file = some (encrypt_blob xorAES S3b.key iv S3b.content) := by
  refine ⟨by decide, by decide, ?_⟩
  rintro ⟨iv, h16, hf⟩
  have hf3 : (some (encrypt_blob xorAES K1 IV0 [97]) : Option (List Nat)) =
      some (encrypt_blob xorAES K2 iv [97]) := hf
  have h4 : encrypt_blob xorAES K1 IV0 [97] = encrypt_blob xorAES K2 iv [97] :=
    Option.some.inj hf3
  have h5 : encrypt_blob xorAES K1 IV0 [97] = iv ++ cbcEnc xorAES K2 iv (pad255 [97]) := h4
  have hiv : iv = (encrypt_blob xorAES K1 IV0 [97]).take 16 := by
    rw [h5, List.take_left' h16]
  have hiv0 : iv = IV0 := by rw [hiv]; decide
  subst hiv0
  exact absurd h4 (by decide)

/-- Splitting a separator-free token leaves it whole. -/
theorem split_on_no_sep (sep : Char) : ∀ (l : List Char), sep ∉ l → split_on sep l = [l]
  | [], _ => rfl
  | c :: rest, h => by
    have hc : c ≠ sep := fun hh => h (hh ▸ List.mem_cons_self c rest)
    have hrest := split_on_no_sep sep rest (fun hm => h (List.mem_cons_of_mem _ hm))
    simp only [split_on, if_neg hc, hrest]

/-- Tokenizing a one-letter command followed by one separator-free
argument token. -/
theorem tokenize_two (c : Char) (tok : List Char) (hc : c ≠ ' ') (hne : tok ≠ [])
    (hsp : ' ' ∉ tok) : tokenize (c :: ' ' :: tok) = [[c], tok] := by
  have h2 : split_on ' ' (c :: ' ' :: tok) = [c] :: [tok] := by
    simp only [split_on, if_neg hc, split_on_no_sep ' ' tok hsp, ite_true]
  rw [tokenize, h2]
  simp [hne]

/-- C6 (amended): only part of the per-command errors are recovered.  A
non-integer or out-of-range index given to delete, and non-ASCII text
given to write, are caught: an error message is printed, the state is
unchanged and the loop stays RUNNING.  But a non-integer argument to
read and an invalid regular expression given to find raise uncaught
exceptions (none), and at the loop level the read error crashes the
process while the delete error keeps it RUNNING. -/
theorem C6_errors_amended (cmpl : List Char → Option (List Nat → Bool)) (E : AESfun)
    (aux pass : List Char) (iv : List Nat) (writeOk : Bool) (s : Session)
    (tok pat msg : List Char)
    (htok : pyIntChars tok = none) (hne : tok ≠ []) (hsp : ' ' ∉ tok)
    (hpat : cmpl pat = none) (hmsg : isAscii msg = false) :
    delete_row s [tok] = (s, true)
    ∧ write_row s [msg] = (s, true)
    ∧ read_rows (linesOf s.content_lines) [tok] = none
    ∧ find_rows cmpl (linesOf s.content_lines) [pat] = none
    ∧ repl_step cmpl E aux pass iv writeOk s (['d', ' '] ++ tok) = .running s
    ∧ repl_step cmpl E aux pass iv writeOk s (['r', ' '] ++ tok) = .crashed := by
  have hdel : delete_row s [tok] = (s, true) := by
    simp [delete_row, validate_row, get_first, htok]
  have hread : read_rows (linesOf s.content_lines) [tok] = none := by
    simp [read_rows, get_first, hne, htok]
  have htd := tokenize_two 'd' tok (by decide) hne hsp
  have htr := tokenize_two 'r' tok (by decide) hne hsp
  refine ⟨hdel, ?_, hread, ?_, ?_, ?_⟩
  · simp [write_row, join_sp, hmsg]
  · simp [find_rows, get_first, hpat]
  · show repl_step cmpl E aux pass iv writeOk s ('d' :: ' ' :: tok) = .running s
    rw [repl_step, if_neg (by simp), htd]
    simp [hdel]
  · show repl_step cmpl E aux pass iv writeOk s ('r' :: ' ' :: tok) = .crashed
    rw [repl_step, if_neg (by simp), htr]
    simp [hread]

/-- C6 witness: the amended statement on the empty session, the
non-integer index token a, an invalid pattern under a compiler that
rejects it, and a non-ASCII message. -/
theorem C6_errors_amended_witness :
    delete_row S0 [['a']] = (S0, true)
    ∧ write_row S0 [['é']] = (S0, true)
    ∧ read_rows (linesOf S0.content_lines) [['a']] = none
    ∧ find_rows noCompile (linesOf S0.content_lines) [['[']] = none
    ∧ repl_step noCompile xorAES [] [] [] true S0 (['d', ' '] ++ ['a']) = .running S0
    ∧ repl_step noCompile xorAES [] [] [] true S0 (['r', ' '] ++ ['a']) = .crashed :=
  C6_errors_amended noCompile xorAES [] [] [] true S0 ['a'] ['['] ['é']
    (by decide) (by decide) (by decide) rfl (by decide)

/-- C6 counterexample: the input line r b (read with a non-integer
argument, a plain user mistake) crashes the process instead of being
reported and keeping the loop RUNNING: int() raises an uncaught
ValueError inside _read and _start has no exception handling. -/
theorem C6_crash_cex :
    repl_step noCompile xorAES [] [] [] true S0 ['r', ' ', 'b'] = .crashed := by
  decide

/-- C7 (amended): _write rejects non-ASCII text with an error message
and leaves the records unchanged; but EMPTY text is silently ignored,
with no error of any kind (refuting the claimed ValidationError, see the
counterexample); every nonempty ASCII text is appended as exactly one
new record at index equal to the previous length, all earlier records
and their indices unchanged. -/
theorem C7_insert_amended (s : Session) (params : List (List Char)) :
    (isAscii (join_sp params) = false → write_row s params = (s, true))
    ∧ (join_sp params = [] → write_row s params = (s, false))
    ∧ (∀ l, s.content_lines = .lines l → isAscii (join_sp params) = true →
        join_sp params ≠ [] →
        write_row s params =
          ({ s with
              content_lines := .lines (l ++ [bytesOf (join_sp params)]),
              content := joinB (l ++ [bytesOf (join_sp params)]) }, false)
        ∧ (l ++ [bytesOf (join_sp params)]).length = l.length + 1
        ∧ (∀ i, i < l.length → (l ++ [bytesOf (join_sp params)])[i]? = l[i]?)
        ∧ (l ++ [bytesOf (join_sp params)])[l.length]? = some (bytesOf (join_sp params))) := by
  refine ⟨?_, ?_, ?_⟩
  · intro h
    simp [write_row, h]
  · intro h
    simp [write_row, h, isAscii]
  · intro l hl ha hne
    refine ⟨?_, by simp, ?_, ?_⟩
    · simp [write_row, ha, hne, hl]
    · intro i hi
      rw [List.getElem?_append_left hi]
    · rw [List.getElem?_concat_length]

/-- C7 witness: inserting the text a into the empty store appends the
single record 97 with no error. -/
theorem C7_insert_amended_witness :
    write_row S0 [['a']] =
      ({ S0 with content_lines := .lines [[97]], content := joinB [[97]] }, false) := by
  have h := (C7_insert_amended S0 [['a']]).2.2 [] rfl (by decide) (by decide)
  exact h.1.trans (by decide)

/-- C7 counterexample: inserting empty text (no arguments) is a silent
no-op: the store is unchanged AND no error message is printed (the Bool
is false), refuting the claim that insert fails with ValidationError on
text that is empty after trimming. -/
theorem C7_insert_cex : write_row S0 [] = (S0, false) := by
  decide

/-- C8 (confirmed): for an integer index token, delete fails (message
printed, state unchanged) exactly when the index is outside
0 <= index < length; an in-range index removes precisely that record
and shifts every subsequent record down by one. -/
theorem C8_delete_correct (s : Session) (l : List (List Nat)) (tok : List Char) (r : Int)
    (hl : s.content_lines = .lines l) (hp : pyIntChars tok = some r) :
    (0 ≤ r → r < (l.length : Int) →
      delete_row s [tok] =
        ({ s with
            content_lines := .lines (l.take r.toNat ++ l.drop (r.toNat + 1)),
            content := joinB (l.take r.toNat ++ l.drop (r.toNat + 1)) }, false)
      ∧ (l.take r.toNat ++ l.drop (r.toNat + 1)).length = l.length - 1
      ∧ (∀ i : Nat, i < r.toNat → (l.take r.toNat ++ l.drop (r.toNat + 1))[i]? = l[i]?)
      ∧ (∀ i : Nat, r.toNat ≤ i → i < l.length - 1 →
          (l.take r.toNat ++ l.drop (r.toNat + 1))[i]? = l[i + 1]?))
    ∧ (¬ (0 ≤ r ∧ r < (l.length : Int)) → delete_row s [tok] = (s, true)) := by
  constructor
  · intro h0 hr
    have hval : validate_row l (get_first [tok]) = some r.toNat := by
      simp only [validate_row, get_first, hp]
      rw [if_neg (by omega)]
    have hrn : r.toNat < l.length := by omega
    refine ⟨?_, ?_, ?_, ?_⟩
    · simp [delete_row, hl, linesOf, hval]
    · rw [List.length_append, List.length_take, List.length_drop]
      omega
    · intro i hi
      rw [List.getElem?_append_left (by rw [List.length_take]; omega)]
      rw [List.getElem?_take_of_lt (by omega)]
    · intro i h1 h2
      rw [List.getElem?_append_right (by rw [List.length_take]; omega)]
      rw [List.getElem?_drop]
      congr 1
      rw [List.length_take]
      omega
  · intro hno
    have hval : validate_row l (get_first [tok]) = none := by
      simp only [validate_row, get_first, hp]
      rw [if_pos (by omega)]
    simp [delete_row, hl, linesOf, hval]

/-- C8 witness: the deletion example from the specification: on records
alpha, beta, gamma, delete 1 yields alpha, gamma with no error, and
delete 5 is an out-of-range error leaving the store unchanged. -/
theorem C8_delete_correct_witness :
    delete_row S8 [['1']] =
      ({ S8 with
          content_lines := .lines [alphaRec, gammaRec],
          content := joinB [alphaRec, gammaRec] }, false)
    ∧ delete_row S8 [['5']] = (S8, true) := by
  constructor
  · have h := (C8_delete_correct S8 [alphaRec, betaRec, gammaRec] ['1'] 1 rfl
      (by decide)).1 (by decide) (by decide)
    exact h.1.trans (by decide)
  · exact (C8_delete_correct S8 [alphaRec, betaRec, gammaRec] ['5'] 5 rfl
      (by decide)).2 (by decide)

/-- Soundness of the rejection-sampling loop: any password it returns
has the sampled length k and passes the four-alphabet check. -/
theorem gen_loop_sound (rand : Nat → Nat) (k : Nat) :
    ∀ (fuel off : Nat) (pwd : List Nat), gen_loop rand k fuel off = some pwd →
      pwd.length = k ∧ good_pwd pwd = true := by
  intro fuel
  induction fuel with
  | zero => intro off pwd h; simp [gen_loop] at h
  | succ fuel ih =>
    intro off pwd h
    simp only [gen_loop] at h
    by_cases hg : good_pwd ((List.range k).map
        (fun j => genChars.getD (rand (off + j) % genChars.length) 0)) = true
    · rw [if_pos hg] at h
      have hs := Option.some.inj h
      rw [← hs]
      exact ⟨by simp, hg⟩
    · rw [if_neg hg] at h
      exact ih (off + k) pwd h

/-- C9 (confirmed): whenever the generation loop terminates, the
password has exactly the sampled length k and contains at least one
digit, one lowercase letter, one uppercase letter and one punctuation
character; an absent length argument defaults to 8 and an integer
argument below 4 is raised to 4. -/
theorem C9_generate_correct (rand : Nat → Nat) (k fuel off : Nat) (pwd : List Nat)
    (tok : List Char) (r : Int)
    (hgen : gen_loop rand k fuel off = some pwd) :
    pwd.length = k
    ∧ pwd.any isDigitB = true
    ∧ pwd.any isLowerB = true
    ∧ pwd.any isUpperB = true
    ∧ pwd.any isPunctB = true
    ∧ gen_k [] = some 8
    ∧ (pyIntChars tok = some r → tok ≠ [] →
        gen_k [tok] = some (max r 4).toNat ∧ (r < 4 → gen_k [tok] = some 4)) := by
  obtain ⟨hl, hg⟩ := gen_loop_sound rand k fuel off pwd hgen
  simp only [good_pwd, Bool.and_eq_true] at hg
  obtain ⟨⟨⟨h1, h2⟩, h3⟩, h4⟩ := hg
  refine ⟨hl, h1, h2, h3, h4, rfl, ?_⟩
  intro hp hne
  cases tok with
  | nil => exact absurd rfl hne
  | cons c cs =>
    have hgk : gen_k [c :: cs] = some (max r 4).toNat := by
      simp [gen_k, get_first, hp]
    refine ⟨hgk, ?_⟩
    intro hr4
    rw [hgk]
    congr 1
    omega

/-- C9 witness: a run of the loop with four draws hitting the four
alphabet segments terminates in one round with the password 0aA! of the
requested length 4; the defaults behave as claimed. -/
theorem C9_generate_correct_witness :
    ([48, 97, 65, 33] : List Nat).length = 4
    ∧ ([48, 97, 65, 33] : List Nat).any isDigitB = true
    ∧ ([48, 97, 65, 33] : List Nat).any isLowerB = true
    ∧ ([48, 97, 65, 33] : List Nat).any isUpperB = true
    ∧ ([48, 97, 65, 33] : List Nat).any isPunctB = true
    ∧ gen_k [] = some 8
    ∧ gen_k [['2']] = some 4 := by
  have h := C9_generate_correct (fun n => [0, 10, 36, 62].getD n 0) 4 1 0
    [48, 97, 65, 33] ['2'] 2 (by decide)
  exact ⟨h.1, h.2.1, h.2.2.1, h.2.2.2.1, h.2.2.2.2.1, h.2.2.2.2.2.1,
    (h.2.2.2.2.2.2 (by decide) (by decide)).2 (by decide)⟩

/-- C10 (confirmed): a confirmed delete-all installs the empty
bytearray as the record container; every subsequent insert then takes
the error branch (appending a byte string onto a bytearray raises the
caught TypeError), so no sequence of inserts after a confirmed
delete-all ever changes the state or adds a record. -/
theorem C10_delete_all_blocks_insert (s : Session) (wss : List (List (List Char))) :
    apply_writes (delete_all s ['y']) wss = delete_all s ['y']
    ∧ (delete_all s ['y']).content_lines = .rawEmpty
    ∧ linesOf (apply_writes (delete_all s ['y']) wss).content_lines = []
    ∧ (∀ ps : List (List Char), isAscii (join_sp ps) = true → join_sp ps ≠ [] →
        write_row (delete_all s ['y']) ps = (delete_all s ['y'], true)) := by
  have hraw : (delete_all s ['y']).content_lines = .rawEmpty := by
    simp [delete_all]
  have hw : ∀ (t : Session), t.content_lines = .rawEmpty →
      ∀ ps : List (List Char), (write_row t ps).1 = t := by
    intro t ht ps
    simp only [write_row, ht]
    by_cases h1 : isAscii (join_sp ps) = true
    · rw [if_pos h1]
      by_cases h2 : join_sp ps = []
      · rw [if_pos h2]
      · rw [if_neg h2]
    · rw [if_neg h1]
  have haux : ∀ (wss2 : List (List (List Char))) (t : Session),
      t.content_lines = .rawEmpty → apply_writes t wss2 = t := by
    intro wss2
    induction wss2 with
    | nil => intro t _; rfl
    | cons ps rest ih =>
      intro t ht
      show apply_writes (write_row t ps).1 rest = t
      rw [hw t ht ps]
      exact ih t ht
  refine ⟨haux wss _ hraw, hraw, ?_, ?_⟩
  · rw [haux wss _ hraw, hraw]
    rfl
  · intro ps ha hne
    simp [write_row, hraw, ha, hne]

/-- C10 witness: on a concrete store, after a confirmed delete-all two
inserts change nothing, the container is the empty bytearray, the
record sequence is empty, and a concrete valid insert takes the error
branch. -/
theorem C10_delete_all_blocks_insert_witness :
    apply_writes (delete_all S8 ['y']) [[['a']], [['b']]] = delete_all S8 ['y']
    ∧ (delete_all S8 ['y']).content_lines = .rawEmpty
    ∧ linesOf (apply_writes (delete_all S8 ['y']) [[['a']], [['b']]]).content_lines = []
    ∧ write_row (delete_all S8 ['y']) [['a']] = (delete_all S8 ['y'], true) := by
  have h := C10_delete_all_blocks_insert S8 [[['a']], [['b']]]
  exact ⟨h.1, h.2.1, h.2.2.1, h.2.2.2 [['a']] (by decide) (by decide)⟩

/-- C5 witness: the amended save statement evaluated on the concrete
session S5 under the xor cipher. -/
theorem C5_save_amended_witness :
    (encrypt_step xorAES S5 IV0).1.content = pad255 S5.content
    ∧ ((encrypt_step xorAES S5 IV0).1.content = S5.content ↔ S5.content.length % 16 = 0)
    ∧ (encrypt_step xorAES S5 IV0).1.content_lines = S5.content_lines
    ∧ (encrypt_step xorAES S5 IV0).1.key = S5.key
    ∧ (encrypt_step xorAES S5 IV0).1.file = S5.file
    ∧ save_cmd xorAES S5 IV0 false = none :=
  C5_save_amended xorAES S5 IV0
